import Mathlib

/-!
Verification of the git timestamp engine of `dossie-rs/cli`.

The development shallowly embeds `src/git_utils.rs` (path normalization,
the history walk building `GitTimestampCache`, and the aggregate queries
`latest_addition` / `latest_change`) together with the timestamp resolver
loop of `load_specs` in `src/main.rs`.

Modelling conventions:
* filesystem paths are a flag (absolute?) plus a component list;
* `canonicalize` is an oracle `FsPath → Option FsPath` carried by the
  repository state (the code treats it as a fallible black box);
* the revision walk is the list of items the iterator yields; an item is
  either a failure to load the object id / commit, or a loaded commit
  carrying its time (seconds), the result of loading its tree, and the
  result of `parent(0).ok().and_then(tree().ok())` as produced by the code;
* the tree diff is an oracle `Option Nat → Nat → Option (List DeltaRec)`
  (first parent tree, commit tree), failure meaning `diff_tree_to_tree`
  returned an error;
* timestamps are unbounded integers (the code uses i64 seconds multiplied
  by 1000; no overflow behaviour is relied upon by any claim).
-/

/-- A filesystem path: absolute flag plus components. -/
structure FsPath where
  absolute : Bool
  components : List String
deriving DecidableEq

/-- Rust `Path::join` for the paths appearing here (the joined path is
relative, as in every call site). -/
def joinPath (root p : FsPath) : FsPath :=
  ⟨root.absolute, root.components ++ p.components⟩

/-- Rust `Path::strip_prefix`: succeeds when `root` is a component-wise
ancestor of `p`, returning the relative remainder. -/
def stripRoot (p root : FsPath) : Option FsPath :=
  if p.absolute = root.absolute && root.components.isPrefixOf p.components then
    some ⟨false, p.components.drop root.components.length⟩
  else
    none

/-- The resolved absolute form of one input path in `normalize_paths`:
absolute paths are canonicalized directly, relative ones are joined to the
root first; a canonicalization failure falls back to the uncanonicalized
form (`unwrap_or_else` in the source). -/
def resolveAbs (canon : FsPath → Option FsPath) (root p : FsPath) : FsPath :=
  if p.absolute then
    (canon p).getD p
  else
    (canon (joinPath root p)).getD (joinPath root p)

/-- Embedding of `normalize_paths` (git_utils.rs:165): resolve each path,
strip the root, collect the survivors into a set (modelled as a list
without duplicates, in first-insertion order). -/
def normalize_paths (canon : FsPath → Option FsPath) (root : FsPath)
    (paths : List FsPath) : List FsPath :=
  paths.foldl
    (fun acc path =>
      match stripRoot (resolveAbs canon root path) root with
      | some r => if r ∈ acc then acc else acc ++ [r]
      | none => acc)
    []

/-- Embedding of `PathTimes` (git_utils.rs:38). -/
structure PathTimes where
  addition : Option Int
  last_change : Option Int
deriving DecidableEq

/-- Delta classification as used by the walk (git2 `Delta`). -/
inductive DeltaStatus where
  | added
  | renamed
  | copied
  | modified
  | deleted
  | other
deriving DecidableEq

/-- One entry of a tree diff: `new_file().path().or_else(old_file().path())`
plus the status. -/
structure DeltaRec where
  path : Option FsPath
  status : DeltaStatus
deriving DecidableEq

/-- A loaded commit as the walk observes it: its time in seconds, the
result of loading its tree, and the result of
`parent(0).ok().and_then(tree().ok())` (so `some x` means parent zero was
found and `x` is the result of loading that parent's tree). -/
structure CommitObj where
  time : Int
  tree : Option Nat
  parent : Option (Option Nat)
deriving DecidableEq

/-- One item yielded by the revision walk: either a failed object id or
commit lookup (both `continue` in the source), or a loaded commit. -/
inductive WalkItem where
  | err
  | ok (c : CommitObj)
deriving DecidableEq

/-- Repository state: working directory root, canonicalization oracle,
tree diff oracle, and the revision walk (`none` models `revwalk()`
returning an error). -/
structure RepoState where
  workdir : FsPath
  canon : FsPath → Option FsPath
  diffFn : Option Nat → Nat → Option (List DeltaRec)
  walk : Option (List WalkItem)

/-- Association list lookup, the model of `HashMap::get`. -/
def lookupTimes : List (FsPath × PathTimes) → FsPath → Option PathTimes
  | [], _ => none
  | kv :: rest, p => if kv.1 = p then some kv.2 else lookupTimes rest p

/-- Model of mutating `entry.last_change` through `HashMap::get_mut`. -/
def setLastChange (m : List (FsPath × PathTimes)) (p : FsPath) (t : Int) :
    List (FsPath × PathTimes) :=
  m.map (fun kv => if kv.1 = p then (kv.1, ⟨kv.2.addition, some t⟩) else kv)

/-- Model of mutating `entry.addition` through `HashMap::get_mut`. -/
def setAddition (m : List (FsPath × PathTimes)) (p : FsPath) (t : Int) :
    List (FsPath × PathTimes) :=
  m.map (fun kv => if kv.1 = p then (kv.1, ⟨some t, kv.2.last_change⟩) else kv)

/-- State of the walk: the result map and the two pending sets
(lists with set semantics; removal filters the element out). -/
structure BuildState where
  times : List (FsPath × PathTimes)
  pendA : List FsPath
  pendC : List FsPath
deriving DecidableEq

/-- Statuses counting as "newly introduced"
(`Delta::Added | Delta::Renamed | Delta::Copied`). -/
def isNewlyAdded : DeltaStatus → Bool
  | .added => true
  | .renamed => true
  | .copied => true
  | _ => false

/-- The `pending_changes` branch of the delta loop (git_utils.rs:128-135):
the possibly updated map together with the `updated.last_change` flag. -/
def changePhase (st : BuildState) (time : Int) (path : FsPath) :
    List (FsPath × PathTimes) × Bool :=
  if path ∈ st.pendC then
    match lookupTimes st.times path with
    | some entry =>
      if entry.last_change = none then (setLastChange st.times path time, true)
      else (st.times, false)
    | none => (st.times, false)
  else (st.times, false)

/-- The `pending_additions` branch of the delta loop (git_utils.rs:137-146),
running on the map already updated by the change branch. -/
def additionPhase (times1 : List (FsPath × PathTimes)) (pendA : List FsPath)
    (time : Int) (path : FsPath) (status : DeltaStatus) :
    List (FsPath × PathTimes) × Bool :=
  if path ∈ pendA ∧ isNewlyAdded status = true then
    match lookupTimes times1 path with
    | some entry =>
      if entry.addition = none then (setAddition times1 path time, true)
      else (times1, false)
    | none => (times1, false)
  else (times1, false)

/-- Embedding of the body of the delta loop (git_utils.rs:115-154). -/
def processDelta (st : BuildState) (time : Int) (d : DeltaRec) : BuildState :=
  match d.path with
  | none => st
  | some path =>
    if lookupTimes st.times path = none then st
    else
      let changeStep := changePhase st time path
      let additionStep := additionPhase changeStep.1 st.pendA time path d.status
      { times := additionStep.1
        pendA :=
          if additionStep.2 then st.pendA.filter (fun q => q ≠ path) else st.pendA
        pendC :=
          if changeStep.2 then st.pendC.filter (fun q => q ≠ path) else st.pendC }

/-- Fold of `processDelta` over one commit's deltas. -/
def processDeltas (st : BuildState) (time : Int) (ds : List DeltaRec) : BuildState :=
  ds.foldl (fun s d => processDelta s time d) st

/-- Embedding of `commit_time_to_millis` (git_utils.rs:188). -/
def commit_time_to_millis (t : Int) : Int := t * 1000

/-- Embedding of the revision walk loop of `build_cache`
(git_utils.rs:94-160), including the early break once both pending sets
are empty. Object id, commit and tree load failures `continue` (no break
check); a diff failure falls through to the break check without touching
the state. -/
def walkLoop (diffFn : Option Nat → Nat → Option (List DeltaRec)) :
    BuildState → List WalkItem → BuildState
  | st, [] => st
  | st, WalkItem.err :: rest => walkLoop diffFn st rest
  | st, WalkItem.ok c :: rest =>
    match c.tree with
    | none => walkLoop diffFn st rest
    | some tr =>
      match diffFn (c.parent.bind (fun x => x)) tr with
      | none =>
        if st.pendA = [] ∧ st.pendC = [] then st
        else walkLoop diffFn st rest
      | some ds =>
        let st' := processDeltas st (commit_time_to_millis c.time) ds
        if st'.pendA = [] ∧ st'.pendC = [] then st'
        else walkLoop diffFn st' rest

/-- Embedding of `GitTimestampCache` (git_utils.rs:44). -/
structure GitTimestampCache where
  times : List (FsPath × PathTimes)
deriving DecidableEq

/-- Embedding of `build_cache` (git_utils.rs:75). -/
def build_cache (st : RepoState) (paths : List FsPath) : GitTimestampCache :=
  let rel := normalize_paths st.canon st.workdir paths
  let times : List (FsPath × PathTimes) := rel.map (fun p => (p, ⟨none, none⟩))
  if times.isEmpty then ⟨times⟩
  else
    match st.walk with
    | none => ⟨times⟩
    | some items => ⟨(walkLoop st.diffFn ⟨times, rel, rel⟩ items).times⟩

/-- Embedding of `GitTimestampCache::from_paths` (git_utils.rs:49). -/
def GitTimestampCache.from_paths (st : RepoState) (paths : List FsPath) :
    GitTimestampCache :=
  build_cache st paths

/-- Embedding of `GitTimestampCache::latest_addition` (git_utils.rs:53). -/
def latest_addition (c : GitTimestampCache) (paths : List FsPath) : Option Int :=
  ((paths.filterMap (fun p => lookupTimes c.times p)).filterMap
    (fun e => e.addition)).max?

/-- Embedding of `GitTimestampCache::latest_change` (git_utils.rs:61). -/
def latest_change (c : GitTimestampCache) (paths : List FsPath) : Option Int :=
  ((paths.filterMap (fun p => lookupTimes c.times p)).filterMap
    (fun e => e.last_change)).max?

/-- Embedding of `first_commit_timestamp` (git_utils.rs:30): build a cache
from the given paths and query `latest_addition` with the same raw paths. -/
def first_commit_timestamp (st : RepoState) (paths : List FsPath) : Option Int :=
  latest_addition (GitTimestampCache.from_paths st paths) paths

/-- Embedding of `last_commit_timestamp` (git_utils.rs:34). -/
def last_commit_timestamp (st : RepoState) (paths : List FsPath) : Option Int :=
  latest_change (GitTimestampCache.from_paths st paths) paths

/-- Embedding of the resolver body of the `load_specs` loop
(main.rs:933-960): git aggregates from the optional cache, then the
`or` precedence chains for `created`, `updated` and `updated_sort`. -/
def resolveDocTimes (gitCache : Option GitTimestampCache) (gitPaths : List FsPath)
    (metaCreated metaUpdated fileCreated fileModified : Option Int) (now : Int) :
    Option Int × Option Int × Int :=
  let g :=
    (gitCache.map (fun c => (latest_addition c gitPaths, latest_change c gitPaths))).getD
      (none, none)
  let created := ((metaCreated.or g.1).or fileCreated).or fileModified
  let updated := ((metaUpdated.or g.2).or fileModified).or created
  let updatedSort := (updated.or created).getD now
  (created, updated, updatedSort)

/-- The walk loop as the spec describes the full traversal: identical to
`walkLoop` but without the early break, continuing over the entire
remaining history. Used only to state and prove the early-termination
refinement. -/
def walkLoopFull (diffFn : Option Nat → Nat → Option (List DeltaRec)) :
    BuildState → List WalkItem → BuildState
  | st, [] => st
  | st, WalkItem.err :: rest => walkLoopFull diffFn st rest
  | st, WalkItem.ok c :: rest =>
    match c.tree with
    | none => walkLoopFull diffFn st rest
    | some tr =>
      match diffFn (c.parent.bind (fun x => x)) tr with
      | none => walkLoopFull diffFn st rest
      | some ds =>
        walkLoopFull diffFn (processDeltas st (commit_time_to_millis c.time) ds) rest

/-- `build_cache` with the full traversal instead of the early-stopping
one; the comparison object for the refinement claim. -/
def build_cache_full (st : RepoState) (paths : List FsPath) : GitTimestampCache :=
  let rel := normalize_paths st.canon st.workdir paths
  let times : List (FsPath × PathTimes) := rel.map (fun p => (p, ⟨none, none⟩))
  if times.isEmpty then ⟨times⟩
  else
    match st.walk with
    | none => ⟨times⟩
    | some items => ⟨(walkLoopFull st.diffFn ⟨times, rel, rel⟩ items).times⟩

/-- The observable effect of one walk item: `none` when the item is
skipped or its diff fails, otherwise the commit time (seconds) and the
diff's deltas. -/
def itemEvent (diffFn : Option Nat → Nat → Option (List DeltaRec)) :
    WalkItem → Option (Int × List DeltaRec)
  | WalkItem.err => none
  | WalkItem.ok c =>
    match c.tree with
    | none => none
    | some tr => (diffFn (c.parent.bind (fun x => x)) tr).map (fun ds => (c.time, ds))

/-- The sequence of (time, deltas) events a walk actually processes. -/
def walkEvents (diffFn : Option Nat → Nat → Option (List DeltaRec))
    (items : List WalkItem) : List (Int × List DeltaRec) :=
  items.filterMap (itemEvent diffFn)

/-- Fold of the per-commit processing over an event sequence. -/
def eventsFold (st : BuildState) (evs : List (Int × List DeltaRec)) : BuildState :=
  evs.foldl (fun s e => processDeltas s (commit_time_to_millis e.1) e.2) st

/-- Does this delta touch path `P` (its reported path is `P`)? -/
def touchesDelta (P : FsPath) (d : DeltaRec) : Bool :=
  decide (d.path = some P)

/-- Does this delta classify `P` as newly introduced? -/
def introducesDelta (P : FsPath) (d : DeltaRec) : Bool :=
  decide (d.path = some P) && isNewlyAdded d.status

/-- Does this commit event touch `P`? -/
def touchesEvent (P : FsPath) (e : Int × List DeltaRec) : Bool :=
  e.2.any (touchesDelta P)

/-- Does this commit event classify `P` as newly introduced? -/
def introducesEvent (P : FsPath) (e : Int × List DeltaRec) : Bool :=
  e.2.any (introducesDelta P)

/-- Time (in milliseconds) of the first event in walk order touching `P`. -/
def firstTouchTime (P : FsPath) (evs : List (Int × List DeltaRec)) : Option Int :=
  ((evs.filter (touchesEvent P)).head?).map (fun e => commit_time_to_millis e.1)

/-- Time (in milliseconds) of the first event in walk order classifying
`P` as newly introduced. -/
def firstIntroTime (P : FsPath) (evs : List (Int × List DeltaRec)) : Option Int :=
  ((evs.filter (introducesEvent P)).head?).map (fun e => commit_time_to_millis e.1)

/-! ### Lookup and update lemmas for the result map -/

theorem lookupTimes_map_entry (m : List (FsPath × PathTimes))
    (f : PathTimes → PathTimes) (p q : FsPath) :
    lookupTimes (m.map (fun kv => if kv.1 = p then (kv.1, f kv.2) else kv)) q =
      (lookupTimes m q).map (fun e => if q = p then f e else e) := by
  induction m with
  | nil => rfl
  | cons kv rest ih =>
    obtain ⟨k, v⟩ := kv
    by_cases hp : k = p <;> by_cases hq : k = q
    · subst hp; subst hq; simp [lookupTimes]
    · subst hp; simp [lookupTimes, hq, ih]
    · subst hq; simp [lookupTimes, hp, fun h => hp (Eq.symm h), ih]
    · simp [lookupTimes, hp, hq, ih]

theorem lookupTimes_setLastChange (m : List (FsPath × PathTimes)) (p : FsPath)
    (t : Int) (q : FsPath) :
    lookupTimes (setLastChange m p t) q =
      (lookupTimes m q).map
        (fun e => if q = p then ⟨e.addition, some t⟩ else e) :=
  lookupTimes_map_entry m (fun e => ⟨e.addition, some t⟩) p q

theorem lookupTimes_setAddition (m : List (FsPath × PathTimes)) (p : FsPath)
    (t : Int) (q : FsPath) :
    lookupTimes (setAddition m p t) q =
      (lookupTimes m q).map
        (fun e => if q = p then ⟨some t, e.last_change⟩ else e) :=
  lookupTimes_map_entry m (fun e => ⟨some t, e.last_change⟩) p q

theorem lookupTimes_init (rel : List FsPath) (q : FsPath) :
    lookupTimes (rel.map (fun p => (p, (⟨none, none⟩ : PathTimes)))) q =
      if q ∈ rel then some ⟨none, none⟩ else none := by
  induction rel with
  | nil => rfl
  | cons r rest ih =>
    by_cases hq : r = q
    · subst hq; simp [lookupTimes]
    · have hq' : ¬q = r := fun h => hq h.symm
      simp [lookupTimes, hq, hq', ih]

/-! ### Option combination helpers -/

theorem option_or_some_left (a : Option Int) (x : Int) (y : Option Int) :
    (a.or (some x)).or y = a.or (some x) := by
  cases a <;> rfl

theorem option_or_if_merge (a : Option Int) (b c : Bool) (t : Int) :
    ((a.or (if b then some t else none)).or (if c then some t else none)) =
      a.or (if b || c then some t else none) := by
  cases a <;> cases b <;> cases c <;> rfl

/-! ### Per-delta characterization of the walk state at a tracked path -/

theorem lookupTimes_changePhase_other (st : BuildState) (t : Int) (q P : FsPath)
    (hne : ¬P = q) :
    lookupTimes (changePhase st t q).1 P = lookupTimes st.times P := by
  unfold changePhase
  split
  · split
    · split <;> simp [lookupTimes_setLastChange, hne]
    · rfl
  · rfl

theorem lookupTimes_additionPhase_other (m : List (FsPath × PathTimes))
    (pendA : List FsPath) (t : Int) (q : FsPath) (s : DeltaStatus) (P : FsPath)
    (hne : ¬P = q) :
    lookupTimes (additionPhase m pendA t q s).1 P = lookupTimes m P := by
  unfold additionPhase
  split
  · split
    · split <;> simp [lookupTimes_setAddition, hne]
    · rfl
  · rfl

theorem mem_filter_ne_self (pend : List FsPath) (q P : FsPath) (b : Bool) :
    P ∈ (if b then pend.filter (fun x => x ≠ q) else pend) ↔
      (P ∈ pend ∧ (b = true → ¬P = q)) := by
  cases b <;> simp [List.mem_filter]

theorem changePhase_at (st : BuildState) (t : Int) (q : FsPath)
    (a l : Option Int)
    (h : lookupTimes st.times q = some ⟨a, l⟩)
    (hC : q ∈ st.pendC ↔ l = none) :
    changePhase st t q =
      if l = none then (setLastChange st.times q t, true) else (st.times, false) := by
  unfold changePhase
  cases l with
  | none => simp [hC.mpr rfl, h]
  | some lv =>
    have : q ∉ st.pendC := fun hm => Option.noConfusion (hC.mp hm)
    simp [this]

theorem additionPhase_at (m : List (FsPath × PathTimes)) (pendA : List FsPath)
    (t : Int) (q : FsPath) (s : DeltaStatus) (a l : Option Int)
    (h : lookupTimes m q = some ⟨a, l⟩)
    (hA : q ∈ pendA ↔ a = none) :
    additionPhase m pendA t q s =
      if a = none ∧ isNewlyAdded s = true then (setAddition m q t, true)
      else (m, false) := by
  unfold additionPhase
  cases a with
  | none =>
    by_cases hs : isNewlyAdded s = true <;> simp [hA.mpr rfl, h, hs]
  | some av =>
    have : q ∉ pendA := fun hm => Option.noConfusion (hA.mp hm)
    simp [this]

theorem processDelta_lookup (st : BuildState) (t : Int) (d : DeltaRec) (P : FsPath)
    (a l : Option Int)
    (h : lookupTimes st.times P = some ⟨a, l⟩)
    (hA : P ∈ st.pendA ↔ a = none)
    (hC : P ∈ st.pendC ↔ l = none) :
    lookupTimes (processDelta st t d).times P =
      some ⟨a.or (if introducesDelta P d then some t else none),
            l.or (if touchesDelta P d then some t else none)⟩
    ∧ (P ∈ (processDelta st t d).pendA ↔
        a.or (if introducesDelta P d then some t else none) = none)
    ∧ (P ∈ (processDelta st t d).pendC ↔
        l.or (if touchesDelta P d then some t else none) = none) := by
  obtain ⟨dp, dstat⟩ := d
  cases dp with
  | none =>
    simp only [processDelta, touchesDelta, introducesDelta]
    simp [h, hA, hC]
  | some q =>
    by_cases hq : q = P
    · subst hq
      simp only [processDelta, touchesDelta, introducesDelta, h]
      cases l with
      | none =>
        have hcp : changePhase st t q = (setLastChange st.times q t, true) := by
          rw [changePhase_at st t q a none h hC]; simp
        have h1 : lookupTimes (setLastChange st.times q t) q =
            some ⟨a, some t⟩ := by
          simp [lookupTimes_setLastChange, h]
        simp only [hcp]
        cases a with
        | none =>
          by_cases hs : isNewlyAdded dstat = true
          · have hap : additionPhase (setLastChange st.times q t) st.pendA t q dstat =
                (setAddition (setLastChange st.times q t) q t, true) := by
              rw [additionPhase_at _ st.pendA t q dstat none (some t) h1 hA]
              simp [hs]
            simp only [hap]
            simp [hs, h1, lookupTimes_setAddition, mem_filter_ne_self, hA, hC]
          · have hap : additionPhase (setLastChange st.times q t) st.pendA t q dstat =
                (setLastChange st.times q t, false) := by
              rw [additionPhase_at _ st.pendA t q dstat none (some t) h1 hA]
              simp [hs]
            simp only [hap]
            simp [hs, h1, mem_filter_ne_self, hA, hC]
        | some av =>
          have hap : additionPhase (setLastChange st.times q t) st.pendA t q dstat =
              (setLastChange st.times q t, false) := by
            rw [additionPhase_at _ st.pendA t q dstat (some av) (some t) h1 hA]
            simp
          simp only [hap]
          by_cases hs : isNewlyAdded dstat = true <;>
            simp [hs, h1, mem_filter_ne_self, hA, hC]
      | some lv =>
        have hcp : changePhase st t q = (st.times, false) := by
          rw [changePhase_at st t q a (some lv) h hC]; simp
        simp only [hcp]
        cases a with
        | none =>
          by_cases hs : isNewlyAdded dstat = true
          · have hap : additionPhase st.times st.pendA t q dstat =
                (setAddition st.times q t, true) := by
              rw [additionPhase_at st.times st.pendA t q dstat none (some lv) h hA]
              simp [hs]
            simp only [hap]
            simp [hs, h, lookupTimes_setAddition, mem_filter_ne_self, hA, hC]
          · have hap : additionPhase st.times st.pendA t q dstat =
                (st.times, false) := by
              rw [additionPhase_at st.times st.pendA t q dstat none (some lv) h hA]
              simp [hs]
            simp only [hap]
            simp [hs, h, mem_filter_ne_self, hA, hC]
        | some av =>
          have hap : additionPhase st.times st.pendA t q dstat =
              (st.times, false) := by
            rw [additionPhase_at st.times st.pendA t q dstat (some av) (some lv) h hA]
            simp
          simp only [hap]
          by_cases hs : isNewlyAdded dstat = true <;>
            simp [hs, h, mem_filter_ne_self, hA, hC]
    · have hq2 : ¬P = q := fun hh => hq (Eq.symm hh)
      have hq' : ¬((some q : Option FsPath) = some P) := by simp [hq]
      simp only [processDelta, touchesDelta, introducesDelta]
      split
      · simp [h, hA, hC, hq']
      · simp only [lookupTimes_additionPhase_other _ _ _ _ _ _ hq2,
          lookupTimes_changePhase_other _ _ _ _ hq2]
        refine ⟨by simp [h, hq'], ?_, ?_⟩
        · cases hf : (additionPhase (changePhase st t q).1 st.pendA t q dstat).2 <;>
            simp [hf, List.mem_filter, hq2, hA, hq']
        · cases hf : (changePhase st t q).2 <;>
            simp [hf, List.mem_filter, hq2, hC, hq']

theorem processDeltas_lookup (ds : List DeltaRec) (st : BuildState) (t : Int)
    (P : FsPath) (a l : Option Int)
    (h : lookupTimes st.times P = some ⟨a, l⟩)
    (hA : P ∈ st.pendA ↔ a = none)
    (hC : P ∈ st.pendC ↔ l = none) :
    lookupTimes (processDeltas st t ds).times P =
      some ⟨a.or (if ds.any (introducesDelta P) then some t else none),
            l.or (if ds.any (touchesDelta P) then some t else none)⟩
    ∧ (P ∈ (processDeltas st t ds).pendA ↔
        a.or (if ds.any (introducesDelta P) then some t else none) = none)
    ∧ (P ∈ (processDeltas st t ds).pendC ↔
        l.or (if ds.any (touchesDelta P) then some t else none) = none) := by
  induction ds generalizing st a l with
  | nil => simpa [processDeltas] using ⟨h, hA, hC⟩
  | cons d ds ih =>
    obtain ⟨h1, hA1, hC1⟩ := processDelta_lookup st t d P a l h hA hC
    have step : processDeltas st t (d :: ds) =
        processDeltas (processDelta st t d) t ds := rfl
    obtain ⟨h2, hA2, hC2⟩ := ih (processDelta st t d) _ _ h1 hA1 hC1
    rw [step]
    refine ⟨?_, ?_, ?_⟩
    · rw [h2, option_or_if_merge, option_or_if_merge, List.any_cons, List.any_cons]
    · rw [hA2, option_or_if_merge, List.any_cons]
    · rw [hC2, option_or_if_merge, List.any_cons]

theorem firstTouchTime_cons (P : FsPath) (e : Int × List DeltaRec)
    (evs : List (Int × List DeltaRec)) :
    firstTouchTime P (e :: evs) =
      if touchesEvent P e then some (commit_time_to_millis e.1)
      else firstTouchTime P evs := by
  by_cases hb : touchesEvent P e <;> simp [firstTouchTime, hb]

theorem firstIntroTime_cons (P : FsPath) (e : Int × List DeltaRec)
    (evs : List (Int × List DeltaRec)) :
    firstIntroTime P (e :: evs) =
      if introducesEvent P e then some (commit_time_to_millis e.1)
      else firstIntroTime P evs := by
  by_cases hb : introducesEvent P e <;> simp [firstIntroTime, hb]

theorem option_or_first_step (a x : Option Int) (b : Bool) (t : Int) :
    ((a.or (if b then some t else none)).or x) =
      a.or (if b then some t else x) := by
  cases a <;> cases b <;> rfl

theorem eventsFold_lookup (evs : List (Int × List DeltaRec)) (st : BuildState)
    (P : FsPath) (a l : Option Int)
    (h : lookupTimes st.times P = some ⟨a, l⟩)
    (hA : P ∈ st.pendA ↔ a = none)
    (hC : P ∈ st.pendC ↔ l = none) :
    lookupTimes (eventsFold st evs).times P =
      some ⟨a.or (firstIntroTime P evs), l.or (firstTouchTime P evs)⟩
    ∧ (P ∈ (eventsFold st evs).pendA ↔ a.or (firstIntroTime P evs) = none)
    ∧ (P ∈ (eventsFold st evs).pendC ↔ l.or (firstTouchTime P evs) = none) := by
  induction evs generalizing st a l with
  | nil => simpa [eventsFold, firstIntroTime, firstTouchTime] using ⟨h, hA, hC⟩
  | cons e evs ih =>
    obtain ⟨et, eds⟩ := e
    obtain ⟨h1, hA1, hC1⟩ :=
      processDeltas_lookup eds st (commit_time_to_millis et) P a l h hA hC
    have step : eventsFold st ((et, eds) :: evs) =
        eventsFold (processDeltas st (commit_time_to_millis et) eds) evs := rfl
    obtain ⟨h2, hA2, hC2⟩ :=
      ih (processDeltas st (commit_time_to_millis et) eds) _ _ h1 hA1 hC1
    rw [step]
    have htc : touchesEvent P (et, eds) = eds.any (touchesDelta P) := rfl
    have hic : introducesEvent P (et, eds) = eds.any (introducesDelta P) := rfl
    refine ⟨?_, ?_, ?_⟩
    · rw [h2, option_or_first_step, option_or_first_step,
        firstIntroTime_cons, firstTouchTime_cons, htc, hic]
    · rw [hA2, option_or_first_step, firstIntroTime_cons, hic]
    · rw [hC2, option_or_first_step, firstTouchTime_cons, htc]

/-! ### Walk equivalences: empty pending sets, early break, event view -/

theorem processDelta_empty_pend (st : BuildState) (t : Int) (d : DeltaRec)
    (hA : st.pendA = []) (hC : st.pendC = []) : processDelta st t d = st := by
  obtain ⟨dp, dstat⟩ := d
  cases dp with
  | none => rfl
  | some q =>
    simp only [processDelta]
    split
    · rfl
    · have hcp : changePhase st t q = (st.times, false) := by
        simp [changePhase, hC]
      have hap : additionPhase st.times st.pendA t q dstat = (st.times, false) := by
        simp [additionPhase, hA]
      simp [hcp, hap]

theorem processDeltas_empty_pend (ds : List DeltaRec) (st : BuildState) (t : Int)
    (hA : st.pendA = []) (hC : st.pendC = []) : processDeltas st t ds = st := by
  induction ds with
  | nil => rfl
  | cons d ds ih =>
    have h1 := processDelta_empty_pend st t d hA hC
    calc processDeltas st t (d :: ds)
        = processDeltas (processDelta st t d) t ds := rfl
      _ = processDeltas st t ds := by rw [h1]
      _ = st := ih

theorem walkLoopFull_empty_pend (d : Option Nat → Nat → Option (List DeltaRec))
    (st : BuildState) (items : List WalkItem)
    (hA : st.pendA = []) (hC : st.pendC = []) : walkLoopFull d st items = st := by
  induction items with
  | nil => rfl
  | cons item rest ih =>
    cases item with
    | err => exact ih
    | ok c =>
      rcases htr : c.tree with _ | tr
      · simpa [walkLoopFull, htr] using ih
      · rcases hdf : d (c.parent.bind fun x => x) tr with _ | ds
        · simpa [walkLoopFull, htr, hdf] using ih
        · simp only [walkLoopFull, htr, hdf]
          rw [processDeltas_empty_pend ds st _ hA hC]
          exact ih

theorem walkLoop_empty_pend (d : Option Nat → Nat → Option (List DeltaRec))
    (st : BuildState) (items : List WalkItem)
    (hA : st.pendA = []) (hC : st.pendC = []) : walkLoop d st items = st := by
  induction items with
  | nil => rfl
  | cons item rest ih =>
    cases item with
    | err => exact ih
    | ok c =>
      rcases htr : c.tree with _ | tr
      · simpa [walkLoop, htr] using ih
      · rcases hdf : d (c.parent.bind fun x => x) tr with _ | ds
        · simp [walkLoop, htr, hdf, hA, hC]
        · simp only [walkLoop, htr, hdf]
          rw [processDeltas_empty_pend ds st _ hA hC]
          simp [hA, hC]

theorem walkLoop_eq_walkLoopFull (d : Option Nat → Nat → Option (List DeltaRec))
    (items : List WalkItem) (st : BuildState) :
    walkLoop d st items = walkLoopFull d st items := by
  induction items generalizing st with
  | nil => rfl
  | cons item rest ih =>
    cases item with
    | err => exact ih st
    | ok c =>
      rcases htr : c.tree with _ | tr
      · simpa [walkLoop, walkLoopFull, htr] using ih st
      · rcases hdf : d (c.parent.bind fun x => x) tr with _ | ds
        · simp only [walkLoop, walkLoopFull, htr, hdf]
          split
          · rename_i hpend
            exact (walkLoopFull_empty_pend d st rest hpend.1 hpend.2).symm
          · exact ih st
        · simp only [walkLoop, walkLoopFull, htr, hdf]
          split
          · rename_i hpend
            exact (walkLoopFull_empty_pend d _ rest hpend.1 hpend.2).symm
          · exact ih _

theorem walkLoopFull_eq_eventsFold (d : Option Nat → Nat → Option (List DeltaRec))
    (items : List WalkItem) (st : BuildState) :
    walkLoopFull d st items = eventsFold st (walkEvents d items) := by
  induction items generalizing st with
  | nil => rfl
  | cons item rest ih =>
    cases item with
    | err => simpa [walkLoopFull, walkEvents, itemEvent] using ih st
    | ok c =>
      rcases htr : c.tree with _ | tr
      · simpa [walkLoopFull, walkEvents, itemEvent, htr] using ih st
      · rcases hdf : d (c.parent.bind fun x => x) tr with _ | ds
        · simpa [walkLoopFull, walkEvents, itemEvent, htr, hdf] using ih st
        · simp only [walkLoopFull, walkEvents, itemEvent, htr, hdf,
            List.filterMap_cons, Option.map_some]
          exact ih _

theorem walkLoop_skip (d : Option Nat → Nat → Option (List DeltaRec))
    (pre post : List WalkItem) (item : WalkItem) (st : BuildState)
    (hskip : itemEvent d item = none) :
    walkLoop d st (pre ++ item :: post) = walkLoop d st (pre ++ post) := by
  induction pre generalizing st with
  | nil =>
    simp only [List.nil_append]
    cases item with
    | err => rfl
    | ok c =>
      rcases htr : c.tree with _ | tr
      · simp [walkLoop, htr]
      · rcases hdf : d (c.parent.bind fun x => x) tr with _ | ds
        · simp only [walkLoop, htr, hdf]
          split
          · rename_i hpend
            exact (walkLoop_empty_pend d st post hpend.1 hpend.2).symm
          · rfl
        · exact absurd hskip (by simp [itemEvent, htr, hdf])
  | cons x pre ih =>
    cases x with
    | err =>
      simpa [walkLoop] using ih st
    | ok c =>
      rcases htr : c.tree with _ | tr
      · simpa [walkLoop, htr] using ih st
      · rcases hdf : d (c.parent.bind fun x => x) tr with _ | ds
        · simp only [List.cons_append, walkLoop, htr, hdf]
          split
          · rfl
          · exact ih st
        · simp only [List.cons_append, walkLoop, htr, hdf]
          split
          · rfl
          · exact ih _

/-! ### First-write-wins: fields already set are never overwritten -/

/-- Entry `f` extends entry `e`: every field already `some` in `e` keeps
its value in `f`. -/
def timesExtend (e f : PathTimes) : Prop :=
  (∀ v, e.addition = some v → f.addition = some v) ∧
  (∀ v, e.last_change = some v → f.last_change = some v)

theorem timesExtend_refl (e : PathTimes) : timesExtend e e :=
  ⟨fun _ hv => hv, fun _ hv => hv⟩

theorem timesExtend_trans (e f g : PathTimes)
    (h1 : timesExtend e f) (h2 : timesExtend f g) : timesExtend e g :=
  ⟨fun v hv => h2.1 v (h1.1 v hv), fun v hv => h2.2 v (h1.2 v hv)⟩

theorem changePhase_shape (st : BuildState) (t : Int) (q : FsPath) :
    (changePhase st t q).1 = st.times ∨
    ∃ entry, lookupTimes st.times q = some entry ∧ entry.last_change = none ∧
      (changePhase st t q).1 = setLastChange st.times q t := by
  unfold changePhase
  by_cases hmem : q ∈ st.pendC
  · rw [if_pos hmem]
    cases hlq : lookupTimes st.times q with
    | none => exact Or.inl rfl
    | some entry =>
      dsimp only
      by_cases hlc : entry.last_change = none
      · exact Or.inr ⟨entry, rfl, hlc, by rw [if_pos hlc]⟩
      · exact Or.inl (by rw [if_neg hlc])
  · rw [if_neg hmem]
    exact Or.inl rfl

theorem additionPhase_shape (m : List (FsPath × PathTimes)) (pendA : List FsPath)
    (t : Int) (q : FsPath) (s : DeltaStatus) :
    (additionPhase m pendA t q s).1 = m ∨
    ∃ entry, lookupTimes m q = some entry ∧ entry.addition = none ∧
      (additionPhase m pendA t q s).1 = setAddition m q t := by
  unfold additionPhase
  by_cases hmem : q ∈ pendA ∧ isNewlyAdded s = true
  · rw [if_pos hmem]
    cases hlq : lookupTimes m q with
    | none => exact Or.inl rfl
    | some entry =>
      dsimp only
      by_cases hla : entry.addition = none
      · exact Or.inr ⟨entry, rfl, hla, by rw [if_pos hla]⟩
      · exact Or.inl (by rw [if_neg hla])
  · rw [if_neg hmem]
    exact Or.inl rfl

theorem changePhase_extend (st : BuildState) (t : Int) (q P : FsPath)
    (e : PathTimes) (h : lookupTimes st.times P = some e) :
    ∃ f, lookupTimes (changePhase st t q).1 P = some f ∧ timesExtend e f := by
  rcases changePhase_shape st t q with hsh | ⟨entry, hlq, hlc, hsh⟩
  · exact ⟨e, by rw [hsh, h], timesExtend_refl e⟩
  · by_cases hpq : P = q
    · subst hpq
      have he : entry = e := by rw [h] at hlq; exact Option.some_inj.mp hlq.symm
      subst he
      refine ⟨⟨entry.addition, some t⟩, ?_, ?_, ?_⟩
      · rw [hsh, lookupTimes_setLastChange, h]; simp
      · intro v hv; exact hv
      · intro v hv; rw [hlc] at hv; exact Option.noConfusion hv
    · refine ⟨e, ?_, timesExtend_refl e⟩
      rw [hsh, lookupTimes_setLastChange, h]
      simp [hpq]

theorem additionPhase_extend (m : List (FsPath × PathTimes)) (pendA : List FsPath)
    (t : Int) (q : FsPath) (s : DeltaStatus) (P : FsPath)
    (e : PathTimes) (h : lookupTimes m P = some e) :
    ∃ f, lookupTimes (additionPhase m pendA t q s).1 P = some f ∧ timesExtend e f := by
  rcases additionPhase_shape m pendA t q s with hsh | ⟨entry, hlq, hla, hsh⟩
  · exact ⟨e, by rw [hsh, h], timesExtend_refl e⟩
  · by_cases hpq : P = q
    · subst hpq
      have he : entry = e := by rw [h] at hlq; exact Option.some_inj.mp hlq.symm
      subst he
      refine ⟨⟨some t, entry.last_change⟩, ?_, ?_, ?_⟩
      · rw [hsh, lookupTimes_setAddition, h]; simp
      · intro v hv; rw [hla] at hv; exact Option.noConfusion hv
      · intro v hv; exact hv
    · refine ⟨e, ?_, timesExtend_refl e⟩
      rw [hsh, lookupTimes_setAddition, h]
      simp [hpq]

theorem processDelta_extend (st : BuildState) (t : Int) (d : DeltaRec) (P : FsPath)
    (e : PathTimes) (h : lookupTimes st.times P = some e) :
    ∃ f, lookupTimes (processDelta st t d).times P = some f ∧ timesExtend e f := by
  obtain ⟨dp, dstat⟩ := d
  cases dp with
  | none => exact ⟨e, h, timesExtend_refl e⟩
  | some q =>
    simp only [processDelta]
    split
    · exact ⟨e, h, timesExtend_refl e⟩
    · obtain ⟨f1, hf1, hx1⟩ := changePhase_extend st t q P e h
      obtain ⟨f2, hf2, hx2⟩ :=
        additionPhase_extend (changePhase st t q).1 st.pendA t q dstat P f1 hf1
      exact ⟨f2, hf2, timesExtend_trans e f1 f2 hx1 hx2⟩

theorem processDeltas_extend (ds : List DeltaRec) (st : BuildState) (t : Int)
    (P : FsPath) (e : PathTimes) (h : lookupTimes st.times P = some e) :
    ∃ f, lookupTimes (processDeltas st t ds).times P = some f ∧ timesExtend e f := by
  induction ds generalizing st e with
  | nil => exact ⟨e, h, timesExtend_refl e⟩
  | cons d ds ih =>
    obtain ⟨f1, hf1, hx1⟩ := processDelta_extend st t d P e h
    obtain ⟨f2, hf2, hx2⟩ := ih (processDelta st t d) f1 hf1
    exact ⟨f2, hf2, timesExtend_trans e f1 f2 hx1 hx2⟩

theorem walkLoop_extend (d : Option Nat → Nat → Option (List DeltaRec))
    (items : List WalkItem) (st : BuildState) (P : FsPath)
    (e : PathTimes) (h : lookupTimes st.times P = some e) :
    ∃ f, lookupTimes (walkLoop d st items).times P = some f ∧ timesExtend e f := by
  induction items generalizing st e with
  | nil => exact ⟨e, h, timesExtend_refl e⟩
  | cons item rest ih =>
    cases item with
    | err => exact ih st e h
    | ok c =>
      rcases htr : c.tree with _ | tr
      · simp only [walkLoop, htr]
        exact ih st e h
      · rcases hdf : d (c.parent.bind fun x => x) tr with _ | ds
        · simp only [walkLoop, htr, hdf]
          split
          · exact ⟨e, h, timesExtend_refl e⟩
          · exact ih st e h
        · simp only [walkLoop, htr, hdf]
          obtain ⟨f1, hf1, hx1⟩ :=
            processDeltas_extend ds st (commit_time_to_millis c.time) P e h
          split
          · exact ⟨f1, hf1, hx1⟩
          · obtain ⟨f2, hf2, hx2⟩ := ih _ f1 hf1
            exact ⟨f2, hf2, timesExtend_trans e f1 f2 hx1 hx2⟩

/-! ### Key-set preservation during the walk -/

theorem lookupTimes_isSome_changePhase (st : BuildState) (t : Int) (q P : FsPath) :
    (lookupTimes (changePhase st t q).1 P).isSome =
      (lookupTimes st.times P).isSome := by
  unfold changePhase
  split
  · split
    · split <;> simp [lookupTimes_setLastChange]
    · rfl
  · rfl

theorem lookupTimes_isSome_additionPhase (m : List (FsPath × PathTimes))
    (pendA : List FsPath) (t : Int) (q : FsPath) (s : DeltaStatus) (P : FsPath) :
    (lookupTimes (additionPhase m pendA t q s).1 P).isSome =
      (lookupTimes m P).isSome := by
  unfold additionPhase
  split
  · split
    · split <;> simp [lookupTimes_setAddition]
    · rfl
  · rfl

theorem lookupTimes_isSome_processDelta (st : BuildState) (t : Int) (d : DeltaRec)
    (P : FsPath) :
    (lookupTimes (processDelta st t d).times P).isSome =
      (lookupTimes st.times P).isSome := by
  obtain ⟨dp, dstat⟩ := d
  cases dp with
  | none => rfl
  | some q =>
    simp only [processDelta]
    split
    · rfl
    · dsimp only
      rw [lookupTimes_isSome_additionPhase, lookupTimes_isSome_changePhase]

theorem lookupTimes_isSome_processDeltas (ds : List DeltaRec) (st : BuildState)
    (t : Int) (P : FsPath) :
    (lookupTimes (processDeltas st t ds).times P).isSome =
      (lookupTimes st.times P).isSome := by
  induction ds generalizing st with
  | nil => rfl
  | cons d ds ih =>
    calc (lookupTimes (processDeltas (processDelta st t d) t ds).times P).isSome
        = (lookupTimes (processDelta st t d).times P).isSome := ih _
      _ = (lookupTimes st.times P).isSome := lookupTimes_isSome_processDelta st t d P

theorem lookupTimes_isSome_eventsFold (evs : List (Int × List DeltaRec))
    (st : BuildState) (P : FsPath) :
    (lookupTimes (eventsFold st evs).times P).isSome =
      (lookupTimes st.times P).isSome := by
  induction evs generalizing st with
  | nil => rfl
  | cons e evs ih =>
    calc (lookupTimes (eventsFold (processDeltas st (commit_time_to_millis e.1) e.2) evs).times P).isSome
        = (lookupTimes (processDeltas st (commit_time_to_millis e.1) e.2).times P).isSome := ih _
      _ = (lookupTimes st.times P).isSome := lookupTimes_isSome_processDeltas _ st _ P

/-! ### Aggregate query characterization -/

theorem intList_max_mem (l : List Int) (v : Int) (h : l.max? = some v) : v ∈ l :=
  List.max?_mem (fun a b => max_choice a b) h

theorem intList_max_ge (l : List Int) (v : Int) (h : l.max? = some v) :
    ∀ w ∈ l, w ≤ v :=
  (List.max?_le_iff (fun _ _ _ => max_le_iff) h).mp le_rfl

theorem intList_max_isSome (l : List Int) (w : Int) (hw : w ∈ l) :
    ∃ v, l.max? = some v := by
  have := List.isSome_max?_of_mem hw
  exact Option.isSome_iff_exists.mp this

theorem mem_aggValues (m : List (FsPath × PathTimes)) (paths : List FsPath)
    (sel : PathTimes → Option Int) (v : Int) :
    v ∈ (paths.filterMap (fun p => lookupTimes m p)).filterMap sel ↔
      ∃ p ∈ paths, ∃ e, lookupTimes m p = some e ∧ sel e = some v := by
  simp only [List.mem_filterMap]
  constructor
  · rintro ⟨e, ⟨p, hp, he⟩, hv⟩
    exact ⟨p, hp, e, he, hv⟩
  · rintro ⟨p, hp, e, he, hv⟩
    exact ⟨e, ⟨p, hp, he⟩, hv⟩

theorem agg_none_iff (m : List (FsPath × PathTimes)) (paths : List FsPath)
    (sel : PathTimes → Option Int) :
    ((paths.filterMap (fun p => lookupTimes m p)).filterMap sel).max? = none ↔
      ∀ p ∈ paths, ∀ e, lookupTimes m p = some e → sel e = none := by
  rw [List.max?_eq_none_iff, List.filterMap_eq_nil_iff]
  constructor
  · intro h p hp e he
    rcases hse : sel e with _ | w
    · rfl
    · exact absurd (h e (by exact List.mem_filterMap.mpr ⟨p, hp, he⟩)) (by simp [hse])
  · intro h e he
    rcases List.mem_filterMap.mp he with ⟨p, hp, hpe⟩
    exact h p hp e hpe

theorem agg_some_iff (m : List (FsPath × PathTimes)) (paths : List FsPath)
    (sel : PathTimes → Option Int) (v : Int) :
    ((paths.filterMap (fun p => lookupTimes m p)).filterMap sel).max? = some v ↔
      ((∃ p ∈ paths, ∃ e, lookupTimes m p = some e ∧ sel e = some v) ∧
       (∀ p ∈ paths, ∀ e, lookupTimes m p = some e →
          ∀ w, sel e = some w → w ≤ v)) := by
  constructor
  · intro h
    refine ⟨(mem_aggValues m paths sel v).mp (intList_max_mem _ v h), ?_⟩
    intro p hp e he w hw
    exact intList_max_ge _ v h w ((mem_aggValues m paths sel w).mpr ⟨p, hp, e, he, hw⟩)
  · rintro ⟨hin, hbd⟩
    have hv : v ∈ (paths.filterMap (fun p => lookupTimes m p)).filterMap sel :=
      (mem_aggValues m paths sel v).mpr hin
    obtain ⟨u, hu⟩ := intList_max_isSome _ v hv
    have humem := (mem_aggValues m paths sel u).mp (intList_max_mem _ u hu)
    obtain ⟨p, hp, e, he, hse⟩ := humem
    have h1 : u ≤ v := hbd p hp e he u hse
    have h2 : v ≤ u := intList_max_ge _ u hu v hv
    rw [hu, le_antisymm h1 h2]

theorem agg_mono (m : List (FsPath × PathTimes)) (s1 s2 : List FsPath)
    (sel : PathTimes → Option Int) (v1 v2 : Int)
    (hsub : ∀ p ∈ s1, p ∈ s2)
    (h1 : ((s1.filterMap (fun p => lookupTimes m p)).filterMap sel).max? = some v1)
    (h2 : ((s2.filterMap (fun p => lookupTimes m p)).filterMap sel).max? = some v2) :
    v1 ≤ v2 := by
  obtain ⟨p, hp, e, he, hse⟩ := (mem_aggValues m s1 sel v1).mp (intList_max_mem _ v1 h1)
  exact intList_max_ge _ v2 h2 v1 ((mem_aggValues m s2 sel v1).mpr ⟨p, hsub p hp, e, he, hse⟩)

/-! ### Path normalization characterization -/

theorem normalize_paths_foldl_mem (canon : FsPath → Option FsPath) (root : FsPath)
    (paths : List FsPath) (acc : List FsPath) (q : FsPath) :
    q ∈ paths.foldl
      (fun acc path =>
        match stripRoot (resolveAbs canon root path) root with
        | some r => if r ∈ acc then acc else acc ++ [r]
        | none => acc) acc ↔
    q ∈ acc ∨ ∃ p ∈ paths, stripRoot (resolveAbs canon root p) root = some q := by
  induction paths generalizing acc with
  | nil => simp
  | cons p paths ih =>
    rw [List.foldl_cons, ih]
    have hstep : q ∈ (match stripRoot (resolveAbs canon root p) root with
        | some r => if r ∈ acc then acc else acc ++ [r]
        | none => acc) ↔
        q ∈ acc ∨ stripRoot (resolveAbs canon root p) root = some q := by
      rcases hs : stripRoot (resolveAbs canon root p) root with _ | r
      · simp
      · by_cases hr : r ∈ acc
        · simp only [if_pos hr]
          constructor
          · exact fun h => Or.inl h
          · rintro (h | h)
            · exact h
            · exact Option.some_inj.mp h ▸ hr
        · simp only [if_neg hr, List.mem_append, List.mem_singleton]
          constructor
          · rintro (h | h)
            · exact Or.inl h
            · exact Or.inr (by rw [h])
          · rintro (h | h)
            · exact Or.inl h
            · exact Or.inr (Option.some_inj.mp h.symm)
    rw [hstep]
    simp only [List.mem_cons]
    constructor
    · rintro ((h | h) | ⟨r, hr, hsr⟩)
      · exact Or.inl h
      · exact Or.inr ⟨p, Or.inl rfl, h⟩
      · exact Or.inr ⟨r, Or.inr hr, hsr⟩
    · rintro (h | ⟨r, (rfl | hr), hsr⟩)
      · exact Or.inl (Or.inl h)
      · exact Or.inl (Or.inr hsr)
      · exact Or.inr ⟨r, hr, hsr⟩

theorem normalize_paths_mem (canon : FsPath → Option FsPath) (root : FsPath)
    (paths : List FsPath) (q : FsPath) :
    q ∈ normalize_paths canon root paths ↔
      ∃ p ∈ paths, stripRoot (resolveAbs canon root p) root = some q := by
  rw [normalize_paths, normalize_paths_foldl_mem]
  simp

theorem normalize_paths_foldl_nodup (canon : FsPath → Option FsPath) (root : FsPath)
    (paths : List FsPath) (acc : List FsPath) (hacc : acc.Nodup) :
    (paths.foldl
      (fun acc path =>
        match stripRoot (resolveAbs canon root path) root with
        | some r => if r ∈ acc then acc else acc ++ [r]
        | none => acc) acc).Nodup := by
  induction paths generalizing acc with
  | nil => exact hacc
  | cons p paths ih =>
    rw [List.foldl_cons]
    refine ih _ ?_
    rcases hs : stripRoot (resolveAbs canon root p) root with _ | r
    · exact hacc
    · by_cases hr : r ∈ acc
      · simpa [hr] using hacc
      · simp only [if_neg hr]
        have : acc ++ [r] = acc.concat r := (List.concat_eq_append acc r).symm
        rw [this]
        exact List.Nodup.concat hr hacc

theorem normalize_paths_nodup (canon : FsPath → Option FsPath) (root : FsPath)
    (paths : List FsPath) : (normalize_paths canon root paths).Nodup :=
  normalize_paths_foldl_nodup canon root paths [] List.nodup_nil

/-! ### Assembly: the built cache at a target path -/

theorem build_cache_lookup_target (st : RepoState) (paths : List FsPath)
    (P : FsPath) (items : List WalkItem)
    (hwalk : st.walk = some items)
    (hP : P ∈ normalize_paths st.canon st.workdir paths) :
    lookupTimes (build_cache st paths).times P =
      some ⟨firstIntroTime P (walkEvents st.diffFn items),
            firstTouchTime P (walkEvents st.diffFn items)⟩ := by
  have hrelne : normalize_paths st.canon st.workdir paths ≠ [] :=
    List.ne_nil_of_mem hP
  have hmapne : ¬((normalize_paths st.canon st.workdir paths).map
      (fun p => (p, (⟨none, none⟩ : PathTimes)))).isEmpty = true := by
    simp [hrelne]
  simp only [build_cache]
  rw [if_neg hmapne, hwalk]
  have h0 : lookupTimes ((normalize_paths st.canon st.workdir paths).map
      (fun p => (p, (⟨none, none⟩ : PathTimes)))) P = some ⟨none, none⟩ := by
    rw [lookupTimes_init, if_pos hP]
  have hiff : P ∈ normalize_paths st.canon st.workdir paths ↔
      (none : Option Int) = none := iff_of_true hP rfl
  obtain ⟨hfin, -, -⟩ := eventsFold_lookup (walkEvents st.diffFn items)
    ⟨(normalize_paths st.canon st.workdir paths).map
        (fun p => (p, (⟨none, none⟩ : PathTimes))),
      normalize_paths st.canon st.workdir paths,
      normalize_paths st.canon st.workdir paths⟩ P none none h0 hiff hiff
  dsimp only
  rw [walkLoop_eq_walkLoopFull, walkLoopFull_eq_eventsFold, hfin]
  simp

theorem build_cache_keys (st : RepoState) (paths : List FsPath) (q : FsPath) :
    (lookupTimes (build_cache st paths).times q).isSome = true ↔
      q ∈ normalize_paths st.canon st.workdir paths := by
  simp only [build_cache]
  by_cases hempty : ((normalize_paths st.canon st.workdir paths).map
      (fun p => (p, (⟨none, none⟩ : PathTimes)))).isEmpty = true
  · rw [if_pos hempty]
    have hrel : normalize_paths st.canon st.workdir paths = [] := by
      simpa using hempty
    rw [hrel]
    simp [lookupTimes]
  · rw [if_neg hempty]
    cases hw : st.walk with
    | none =>
      rw [lookupTimes_init]
      by_cases hq : q ∈ normalize_paths st.canon st.workdir paths <;> simp [hq]
    | some items =>
      dsimp only
      rw [walkLoop_eq_walkLoopFull, walkLoopFull_eq_eventsFold,
        lookupTimes_isSome_eventsFold, lookupTimes_init]
      by_cases hq : q ∈ normalize_paths st.canon st.workdir paths <;> simp [hq]

/-! ### Sorted walks: the head of a filtered event list is the maximum -/

theorem sorted_filter_head_max (evs : List (Int × List DeltaRec))
    (pred : Int × List DeltaRec → Bool)
    (hsort : evs.Pairwise (fun a b => b.1 < a.1))
    (hd : Int × List DeltaRec)
    (hh : (evs.filter pred).head? = some hd) :
    ∀ e ∈ evs, pred e = true → e.1 ≤ hd.1 := by
  have hsf : (evs.filter pred).Pairwise (fun a b => b.1 < a.1) :=
    List.Pairwise.sublist (List.filter_sublist evs) hsort
  intro e he hpe
  have hef : e ∈ evs.filter pred := List.mem_filter.mpr ⟨he, hpe⟩
  cases hfl : evs.filter pred with
  | nil => rw [hfl] at hh; exact Option.noConfusion hh
  | cons x xs =>
    rw [hfl] at hh hef hsf
    have hx : x = hd := by simpa using hh
    subst hx
    rcases List.mem_cons.mp hef with h | h
    · rw [h]
    · exact le_of_lt ((List.pairwise_cons.mp hsf).1 e h)

/-! ### Concrete fixtures used by witnesses and counterexamples -/

/-- Fixture: an absolute repository working directory. -/
def exRoot : FsPath := ⟨true, ["r"]⟩

/-- Fixture: the relative target path `a`. -/
def exRelA : FsPath := ⟨false, ["a"]⟩

/-- Fixture: the relative target path `b`. -/
def exRelB : FsPath := ⟨false, ["b"]⟩

/-- Fixture: the absolute form of `a` under the root. -/
def exAbsA : FsPath := ⟨true, ["r", "a"]⟩

/-- Fixture: a diff oracle reporting `a` as added by every commit. -/
def exDiffA : Option Nat → Nat → Option (List DeltaRec) :=
  fun _ _ => some [⟨some exRelA, DeltaStatus.added⟩]

/-- Fixture: one-commit repository (time 7) that adds `a`. -/
def exStA : RepoState := ⟨exRoot, fun p => some p, exDiffA, some [.ok ⟨7, some 0, none⟩]⟩

/-- Fixture: diff oracle for a three-commit history: tree 1 adds `a`,
tree 2 modifies `a`, tree 3 adds `b`. -/
def exDiff0 : Option Nat → Nat → Option (List DeltaRec) := fun _ tr =>
  if tr = 3 then some [⟨some exRelB, DeltaStatus.added⟩]
  else if tr = 2 then some [⟨some exRelA, DeltaStatus.modified⟩]
  else some [⟨some exRelA, DeltaStatus.added⟩]

/-- Fixture: walk items of the three-commit history, newest first
(times 3, 2, 1). -/
def exItems0 : List WalkItem :=
  [.ok ⟨3, some 3, some (some 2)⟩, .ok ⟨2, some 2, some (some 1)⟩,
   .ok ⟨1, some 1, none⟩]

/-- Fixture: the three-commit repository state. -/
def exSt0 : RepoState := ⟨exRoot, fun p => some p, exDiff0, some exItems0⟩

/-! ### Claim C3: path normalization -/

/-- C3 counterexample: with a canonicalization oracle that always fails,
the relative input path `m` is not dropped — it survives through its
uncanonicalized root-joined fallback. The claim says every path that fails
to canonicalize is dropped, which would force the empty output here. -/
theorem normalize_keeps_noncanonicalizable_cex :
    normalize_paths (fun _ => none) ⟨true, ["r"]⟩ [⟨false, ["m"]⟩] =
      [⟨false, ["m"]⟩] ∧
    normalize_paths (fun _ => none) ⟨true, ["r"]⟩ [⟨false, ["m"]⟩] ≠ [] := by
  constructor <;> decide

/-- C3 (amended): `normalize_paths` never fails and returns a
deduplicated list of root-relative paths; a path that fails to
canonicalize falls back to its uncanonicalized absolute form (itself if
absolute, the root-join if relative), and a path is dropped exactly when
its resolved absolute form does not lie under the root: the output
contains `q` iff some input path resolves-and-strips to `q`. -/
theorem normalize_paths_membership_spec (canon : FsPath → Option FsPath)
    (root : FsPath) (paths : List FsPath) (q : FsPath) :
    (q ∈ normalize_paths canon root paths ↔
      ∃ p ∈ paths, stripRoot (resolveAbs canon root p) root = some q) ∧
    (normalize_paths canon root paths).Nodup :=
  ⟨normalize_paths_mem canon root paths q, normalize_paths_nodup canon root paths⟩

/-- Witness for C3: the membership characterization evaluated on a
concrete input. -/
theorem normalize_paths_membership_spec_witness :
    (⟨false, ["m"]⟩ : FsPath) ∈
      normalize_paths (fun p => some p) ⟨true, ["r"]⟩ [⟨false, ["m"]⟩] :=
  (normalize_paths_membership_spec (fun p => some p) ⟨true, ["r"]⟩
      [⟨false, ["m"]⟩] ⟨false, ["m"]⟩).1.mpr
    ⟨⟨false, ["m"]⟩, by decide, by decide⟩

/-! ### Claim C4: cache coverage -/

/-- C4 counterexample: the cache built from the absolute path `/r/a` does
not contain that passed path as a key — it contains only the normalized
relative form `a` — so `first_commit_timestamp` / `last_commit_timestamp`,
which query with the same raw paths, find nothing even though the walk
recorded times for `a`. -/
theorem from_paths_absolute_query_misses_cex :
    first_commit_timestamp exStA [exAbsA] = none ∧
    last_commit_timestamp exStA [exAbsA] = none ∧
    lookupTimes (GitTimestampCache.from_paths exStA [exAbsA]).times exRelA =
      some ⟨some 7000, some 7000⟩ ∧
    lookupTimes (GitTimestampCache.from_paths exStA [exAbsA]).times exAbsA =
      none := by
  refine ⟨?_, ?_, ?_, ?_⟩ <;> decide

/-- C4 (amended): the cache covers exactly the *normalized root-relative
forms* of the paths passed at construction: a lookup succeeds iff the
queried path is a member of `normalize_paths` of the passed paths. A
passed absolute path differs from its relative form and is therefore not
found by queries that reuse the raw passed paths. -/
theorem from_paths_keys_eq_normalized (st : RepoState) (paths : List FsPath)
    (q : FsPath) :
    (lookupTimes (GitTimestampCache.from_paths st paths).times q).isSome = true ↔
      q ∈ normalize_paths st.canon st.workdir paths :=
  build_cache_keys st paths q

/-- Witness for C4: the normalized relative key is present in a concrete
cache. -/
theorem from_paths_keys_eq_normalized_witness :
    (lookupTimes (GitTimestampCache.from_paths exStA [exAbsA]).times
      exRelA).isSome = true :=
  (from_paths_keys_eq_normalized exStA [exAbsA] exRelA).mpr (by decide)

/-! ### Claim C5: aggregate queries are maxima -/

/-- C5: `latest_addition` returns the maximum of the `addition` values
that are `some` among the queried paths present in the cache, and `none`
when no such value exists; `latest_change` performs the same reduction
over `last_change`. -/
theorem latest_queries_max_spec (c : GitTimestampCache) (paths : List FsPath) :
    (∀ v : Int, latest_addition c paths = some v ↔
      ((∃ p ∈ paths, ∃ e, lookupTimes c.times p = some e ∧ e.addition = some v) ∧
       ∀ p ∈ paths, ∀ e, lookupTimes c.times p = some e →
         ∀ w, e.addition = some w → w ≤ v)) ∧
    (latest_addition c paths = none ↔
      ∀ p ∈ paths, ∀ e, lookupTimes c.times p = some e → e.addition = none) ∧
    (∀ v : Int, latest_change c paths = some v ↔
      ((∃ p ∈ paths, ∃ e, lookupTimes c.times p = some e ∧
          e.last_change = some v) ∧
       ∀ p ∈ paths, ∀ e, lookupTimes c.times p = some e →
         ∀ w, e.last_change = some w → w ≤ v)) ∧
    (latest_change c paths = none ↔
      ∀ p ∈ paths, ∀ e, lookupTimes c.times p = some e → e.last_change = none) :=
  ⟨fun v => agg_some_iff c.times paths (fun e => e.addition) v,
   agg_none_iff c.times paths (fun e => e.addition),
   fun v => agg_some_iff c.times paths (fun e => e.last_change) v,
   agg_none_iff c.times paths (fun e => e.last_change)⟩

/-- Witness for C5: on the three-commit fixture, the characterization
certifies `latest_addition = some 3000` over both paths. -/
theorem latest_queries_max_spec_witness :
    latest_addition (GitTimestampCache.from_paths exSt0 [exRelA, exRelB])
      [exRelA, exRelB] = some 3000 := by
  refine ((latest_queries_max_spec
      (GitTimestampCache.from_paths exSt0 [exRelA, exRelB])
      [exRelA, exRelB]).1 3000).mpr ⟨⟨exRelB, by decide, ⟨some 3000, some 3000⟩, by decide, rfl⟩, ?_⟩
  intro p hp e he w hw
  have hpa : p = exRelA ∨ p = exRelB := by
    simpa using hp
  rcases hpa with h | h
  · subst h
    have hl : lookupTimes (GitTimestampCache.from_paths exSt0
        [exRelA, exRelB]).times exRelA = some ⟨some 1000, some 2000⟩ := by decide
    rw [hl] at he
    have he' : e = ⟨some 1000, some 2000⟩ := Option.some_inj.mp he.symm
    subst he'
    have : w = 1000 := Option.some_inj.mp hw.symm
    omega
  · subst h
    have hl : lookupTimes (GitTimestampCache.from_paths exSt0
        [exRelA, exRelB]).times exRelB = some ⟨some 3000, some 3000⟩ := by decide
    rw [hl] at he
    have he' : e = ⟨some 3000, some 3000⟩ := Option.some_inj.mp he.symm
    subst he'
    have : w = 3000 := Option.some_inj.mp hw.symm
    omega

/-! ### Claim C6: monotone aggregation -/

/-- C6: for path sets related by inclusion, defined aggregate results are
monotone — a superset query result is never smaller, for both
`latest_addition` and `latest_change`. -/
theorem latest_queries_monotone (c : GitTimestampCache) (s1 s2 : List FsPath)
    (hsub : ∀ p ∈ s1, p ∈ s2) :
    (∀ v1 v2 : Int, latest_addition c s1 = some v1 →
      latest_addition c s2 = some v2 → v1 ≤ v2) ∧
    (∀ v1 v2 : Int, latest_change c s1 = some v1 →
      latest_change c s2 = some v2 → v1 ≤ v2) :=
  ⟨fun v1 v2 h1 h2 =>
      agg_mono c.times s1 s2 (fun e => e.addition) v1 v2 hsub h1 h2,
   fun v1 v2 h1 h2 =>
      agg_mono c.times s1 s2 (fun e => e.last_change) v1 v2 hsub h1 h2⟩

/-- Witness for C6: `latest_addition` over `[a]` (1000) is at most
`latest_addition` over `[a, b]` (3000) on the three-commit fixture. -/
theorem latest_queries_monotone_witness : (1000 : Int) ≤ 3000 :=
  (latest_queries_monotone (GitTimestampCache.from_paths exSt0 [exRelA, exRelB])
      [exRelA] [exRelA, exRelB] (by decide)).1 1000 3000 (by decide) (by decide)

/-! ### Claim C7: first-write-wins -/

/-- C7: during a cache build, once a path's `addition` or `last_change`
field is `some`, no later-visited commit of the walk overwrites it: the
final entry still carries the same value. -/
theorem walk_first_write_wins (d : Option Nat → Nat → Option (List DeltaRec))
    (items : List WalkItem) (st : BuildState) (P : FsPath) (e : PathTimes)
    (h : lookupTimes st.times P = some e) :
    ∃ f, lookupTimes (walkLoop d st items).times P = some f ∧
      (∀ v, e.addition = some v → f.addition = some v) ∧
      (∀ v, e.last_change = some v → f.last_change = some v) := by
  obtain ⟨f, hf, hx⟩ := walkLoop_extend d items st P e h
  exact ⟨f, hf, hx.1, hx.2⟩

/-- Witness for C7: an entry already holding `(42, 99)` survives a walk
whose commit reports `a` as newly added (and would otherwise store 7000). -/
theorem walk_first_write_wins_witness :
    ∃ f, lookupTimes (walkLoop exDiffA
        ⟨[(exRelA, ⟨some 42, some 99⟩)], [exRelA], [exRelA]⟩
        [WalkItem.ok ⟨7, some 0, none⟩]).times exRelA = some f ∧
      (∀ v, (some (42 : Int)) = some v → f.addition = some v) ∧
      (∀ v, (some (99 : Int)) = some v → f.last_change = some v) :=
  walk_first_write_wins exDiffA [WalkItem.ok ⟨7, some 0, none⟩]
    ⟨[(exRelA, ⟨some 42, some 99⟩)], [exRelA], [exRelA]⟩ exRelA
    ⟨some 42, some 99⟩ (by decide)

/-! ### Claim C8: early termination is a refinement -/

/-- C8: the traversal with the early break (stop as soon as both pending
sets are empty) produces exactly the cache of the traversal that continues
over the entire remaining history. -/
theorem build_cache_eq_full_traversal (st : RepoState) (paths : List FsPath) :
    build_cache st paths = build_cache_full st paths := by
  simp only [build_cache, build_cache_full]
  split
  · rfl
  · cases hw : st.walk with
    | none => rfl
    | some items =>
      dsimp only
      rw [walkLoop_eq_walkLoopFull]

/-! ### Claim C9: graceful per-commit degradation -/

/-- Fixture: a diff oracle that reports `a` as added when diffing against
the empty tree and reports no change otherwise. -/
def exDiffPT : Option Nat → Nat → Option (List DeltaRec) := fun pt _ =>
  match pt with
  | none => some [⟨some exRelA, DeltaStatus.added⟩]
  | some _ => some []

/-- Fixture: one commit whose parent exists but whose parent tree fails to
load (`parent = some none`). -/
def exStPT : RepoState :=
  ⟨exRoot, fun p => some p, exDiffPT, some [.ok ⟨5, some 0, some none⟩]⟩

/-- Fixture: the same repository with that commit removed from the walk. -/
def exStPTskip : RepoState := ⟨exRoot, fun p => some p, exDiffPT, some []⟩

/-- C9 counterexample: when only the parent tree fails to load, the commit
is NOT skipped — the code diffs it against the empty tree, so every path
in its tree counts as added and the cache differs from the cache built
with the commit removed. The claim asserts such a commit is skipped with
all entries unaffected. -/
theorem parent_tree_failure_not_skipped_cex :
    build_cache exStPT [exRelA] ≠ build_cache exStPTskip [exRelA] ∧
    lookupTimes (build_cache exStPT [exRelA]).times exRelA =
      some ⟨some 5000, some 5000⟩ ∧
    lookupTimes (build_cache exStPTskip [exRelA]).times exRelA =
      some ⟨none, none⟩ := by
  refine ⟨?_, ?_, ?_⟩ <;> decide

/-- C9 (amended): if loading a commit (or its object id), loading its
tree, or computing its diff fails, that commit is skipped and the walk
continues with the next commit: the build equals the build over the walk
with that item removed, so no path's entry is affected and the build never
aborts. (A parent-tree load failure is different: the commit is then
diffed against the empty tree, not skipped.) -/
theorem walk_skips_failed_commits (st st2 : RepoState) (paths : List FsPath)
    (pre post : List WalkItem) (item : WalkItem)
    (hw : st.walk = some (pre ++ item :: post))
    (hw2 : st2 = { st with walk := some (pre ++ post) })
    (hskip : itemEvent st.diffFn item = none) :
    build_cache st paths = build_cache st2 paths := by
  subst hw2
  simp only [build_cache]
  rw [hw]
  dsimp only
  split
  · rfl
  · rw [walkLoop_skip st.diffFn pre post item _ hskip]

/-- Witness for C9: a walk consisting of one unreadable commit builds the
same cache as the empty walk. -/
theorem walk_skips_failed_commits_witness :
    build_cache ⟨exRoot, fun p => some p, exDiffA, some [WalkItem.err]⟩ [exRelA] =
      build_cache ⟨exRoot, fun p => some p, exDiffA, some ([] : List WalkItem)⟩
        [exRelA] :=
  walk_skips_failed_commits
    ⟨exRoot, fun p => some p, exDiffA, some [WalkItem.err]⟩
    ⟨exRoot, fun p => some p, exDiffA, some ([] : List WalkItem)⟩
    [exRelA] [] [] WalkItem.err rfl rfl rfl

/-! ### Claim C10: determinism of the build -/

/-- C10: for a fixed repository state and a fixed input path list, any two
builds produce caches with the same key sequence and the same entry for
every key (the embedding of the build is a pure function of the
repository state, so two runs coincide). -/
theorem from_paths_deterministic (st : RepoState) (paths : List FsPath)
    (c1 c2 : GitTimestampCache)
    (h1 : c1 = GitTimestampCache.from_paths st paths)
    (h2 : c2 = GitTimestampCache.from_paths st paths) :
    c1.times.map Prod.fst = c2.times.map Prod.fst ∧
    ∀ p, lookupTimes c1.times p = lookupTimes c2.times p := by
  subst h1; subst h2
  exact ⟨rfl, fun _ => rfl⟩

/-- Witness for C10: two builds on the one-commit fixture agree at the
key `a`. -/
theorem from_paths_deterministic_witness :
    lookupTimes (GitTimestampCache.from_paths exStA [exRelA]).times exRelA =
      lookupTimes (GitTimestampCache.from_paths exStA [exRelA]).times exRelA :=
  (from_paths_deterministic exStA [exRelA] _ _ rfl rfl).2 exRelA

/-! ### Claim C2: resolver precedence -/

/-- C2: the resolver computes `created`, `updated` and `updated_sort` by
the fixed precedence chains (metadata, then git cache aggregate, then
filesystem, then fallback), an explicit metadata override always wins, and
`updated_sort` is always defined: it equals `updated` when present, else
`created` when present, else `now`. -/
theorem resolver_precedence (gitCache : Option GitTimestampCache)
    (gitPaths : List FsPath) (mc mu fc fm : Option Int) (now : Int) :
    ((resolveDocTimes gitCache gitPaths mc mu fc fm now).1 =
      ((mc.or ((gitCache.map (fun c =>
          (latest_addition c gitPaths, latest_change c gitPaths))).getD
            (none, none)).1).or fc).or fm) ∧
    ((resolveDocTimes gitCache gitPaths mc mu fc fm now).2.1 =
      ((mu.or ((gitCache.map (fun c =>
          (latest_addition c gitPaths, latest_change c gitPaths))).getD
            (none, none)).2).or fm).or
        (resolveDocTimes gitCache gitPaths mc mu fc fm now).1) ∧
    ((resolveDocTimes gitCache gitPaths mc mu fc fm now).2.2 =
      (((resolveDocTimes gitCache gitPaths mc mu fc fm now).2.1).or
        ((resolveDocTimes gitCache gitPaths mc mu fc fm now).1)).getD now) ∧
    (∀ v, mc = some v →
      (resolveDocTimes gitCache gitPaths mc mu fc fm now).1 = some v) ∧
    (∀ v, mu = some v →
      (resolveDocTimes gitCache gitPaths mc mu fc fm now).2.1 = some v) ∧
    (∀ u, (resolveDocTimes gitCache gitPaths mc mu fc fm now).2.1 = some u →
      (resolveDocTimes gitCache gitPaths mc mu fc fm now).2.2 = u) ∧
    ((resolveDocTimes gitCache gitPaths mc mu fc fm now).2.1 = none →
      (resolveDocTimes gitCache gitPaths mc mu fc fm now).1 = none →
      (resolveDocTimes gitCache gitPaths mc mu fc fm now).2.2 = now) := by
  refine ⟨rfl, rfl, rfl, ?_, ?_, ?_, ?_⟩
  · intro v hv
    subst hv
    simp [resolveDocTimes]
  · intro v hv
    subst hv
    simp [resolveDocTimes]
  · intro u hu
    simp only [resolveDocTimes] at hu ⊢
    rw [hu]
    rfl
  · intro hu hc
    simp only [resolveDocTimes] at hu hc ⊢
    rw [hu, hc]
    rfl

/-- Witness for C2: an explicit metadata `created` wins on a concrete
input. -/
theorem resolver_precedence_witness :
    (resolveDocTimes none [] (some 5) (some 6) none none 0).1 = some 5 :=
  (resolver_precedence none [] (some 5) (some 6) none none 0).2.2.2.1 5 rfl

/-! ### Claim C1: the walk resolves last change and addition times -/

/-- Fixture: diff oracle for an add / delete / re-add history of `a`:
tree 1 adds it, tree 2 deletes it, tree 3 adds it again. -/
def exDiffADA : Option Nat → Nat → Option (List DeltaRec) := fun _ tr =>
  if tr = 3 then some [⟨some exRelA, DeltaStatus.added⟩]
  else if tr = 2 then some [⟨some exRelA, DeltaStatus.deleted⟩]
  else some [⟨some exRelA, DeltaStatus.added⟩]

/-- Fixture: walk items of the add / delete / re-add history, newest
first (times 3, 2, 1). -/
def exItemsADA : List WalkItem :=
  [.ok ⟨3, some 3, some (some 2)⟩, .ok ⟨2, some 2, some (some 1)⟩,
   .ok ⟨1, some 1, none⟩]

/-- Fixture: the add / delete / re-add repository state. -/
def exStADA : RepoState := ⟨exRoot, fun p => some p, exDiffADA, some exItemsADA⟩

/-- C1 counterexample: `a` is added at time 1, deleted at time 2 and
re-added at time 3 — every commit touches `a`, and commit times strictly
decrease along the walk (first conjunct). The commits classifying `a` as
newly introduced have times 3 and 1 (second conjunct), so the earliest
one has time 1 and the claim requires `addition = 1000`; the code records
the most recent one, `addition = 3000` (third conjunct), refuting the
claim (fourth conjunct). -/
theorem build_cache_addition_not_earliest_cex :
    ((walkEvents exStADA.diffFn exItemsADA).map Prod.fst = [3, 2, 1]) ∧
    (((walkEvents exStADA.diffFn exItemsADA).filter
        (introducesEvent exRelA)).map Prod.fst = [3, 1]) ∧
    lookupTimes (build_cache exStADA [exRelA]).times exRelA =
      some ⟨some 3000, some 3000⟩ ∧
    lookupTimes (build_cache exStADA [exRelA]).times exRelA ≠
      some ⟨some 1000, some 3000⟩ := by
  refine ⟨?_, ?_, ?_, ?_⟩ <;> decide

/-- C1 (amended): for a target path `P` of the cache and a walk whose
event times strictly decrease (newest first), the built cache records
`last_change P` as the time of the first event in walk order touching `P`
— the most recent touching commit, as the last two conjuncts certify —
and `addition P` as the time of the first event in walk order classifying
`P` as newly introduced, which is the *most recent* (not the earliest)
introducing commit; both are `none` when no such commit exists. -/
theorem build_cache_touch_times (st : RepoState) (paths : List FsPath)
    (P : FsPath) (items : List WalkItem)
    (hwalk : st.walk = some items)
    (hP : P ∈ normalize_paths st.canon st.workdir paths)
    (hsort : (walkEvents st.diffFn items).Pairwise (fun a b => b.1 < a.1)) :
    ∃ e : PathTimes,
      lookupTimes (build_cache st paths).times P = some e ∧
      e.last_change = firstTouchTime P (walkEvents st.diffFn items) ∧
      e.addition = firstIntroTime P (walkEvents st.diffFn items) ∧
      (∀ ev ∈ walkEvents st.diffFn items, touchesEvent P ev = true →
        ∀ t, e.last_change = some t → commit_time_to_millis ev.1 ≤ t) ∧
      (∀ ev ∈ walkEvents st.diffFn items, introducesEvent P ev = true →
        ∀ t, e.addition = some t → commit_time_to_millis ev.1 ≤ t) := by
  refine ⟨⟨firstIntroTime P (walkEvents st.diffFn items),
      firstTouchTime P (walkEvents st.diffFn items)⟩,
    build_cache_lookup_target st paths P items hwalk hP, rfl, rfl, ?_, ?_⟩
  · intro ev hev htouch t hlc
    have hlc' : firstTouchTime P (walkEvents st.diffFn items) = some t := hlc
    rw [firstTouchTime, Option.map_eq_some'] at hlc'
    obtain ⟨hd, hhd, hmt⟩ := hlc'
    have hle := sorted_filter_head_max (walkEvents st.diffFn items)
      (touchesEvent P) hsort hd hhd ev hev htouch
    rw [← hmt]
    exact mul_le_mul_of_nonneg_right hle (by norm_num)
  · intro ev hev hintro t hla
    have hla' : firstIntroTime P (walkEvents st.diffFn items) = some t := hla
    rw [firstIntroTime, Option.map_eq_some'] at hla'
    obtain ⟨hd, hhd, hmt⟩ := hla'
    have hle := sorted_filter_head_max (walkEvents st.diffFn items)
      (introducesEvent P) hsort hd hhd ev hev hintro
    rw [← hmt]
    exact mul_le_mul_of_nonneg_right hle (by norm_num)

/-- Witness for C1: the amended statement evaluated on the three-commit
fixture (add `a` at 1, modify `a` at 2, add `b` at 3). -/
theorem build_cache_touch_times_witness :
    ∃ e : PathTimes,
      lookupTimes (build_cache exSt0 [exRelA, exRelB]).times exRelA = some e ∧
      e.last_change = firstTouchTime exRelA (walkEvents exSt0.diffFn exItems0) ∧
      e.addition = firstIntroTime exRelA (walkEvents exSt0.diffFn exItems0) ∧
      (∀ ev ∈ walkEvents exSt0.diffFn exItems0, touchesEvent exRelA ev = true →
        ∀ t, e.last_change = some t → commit_time_to_millis ev.1 ≤ t) ∧
      (∀ ev ∈ walkEvents exSt0.diffFn exItems0,
        introducesEvent exRelA ev = true →
        ∀ t, e.addition = some t → commit_time_to_millis ev.1 ≤ t) :=
  build_cache_touch_times exSt0 [exRelA, exRelB] exRelA exItems0 rfl
    (by decide) (by decide)
